import Mathlib

/-!
Verification development for the retrieval and response-caching pipeline of a
research-paper RAG service.  The definitions below are shallow embeddings of
`src/services/cache_service.py` (class `QueryCache`),
`src/services/rag_pipeline.py` (class `RAGPipeline`),
`src/api/routes.py` (handler `query_papers`) and the response schemas of
`src/models/schemas.py`.  Machine floats are modelled by exact rationals,
wall-clock time by a logical `Nat` clock, and Python exceptions by `Except`.
-/

namespace RagSpec

/-! ## Python string primitives

`str.lower`, `str.strip`, `str.split()` (whitespace splitting) as used by
`QueryCache._normalize_query` and `RAGPipeline._filter_and_rerank`. -/

/-- Whitespace characters recognised by Python `str.split()` / `str.strip()`. -/
def pyIsSpace (c : Char) : Bool :=
  c = ' ' || c = '\t' || c = '\n' || c = '\r' || c = Char.ofNat 11 || c = Char.ofNat 12

/-- `str.lower()` on the character list of a string (ASCII-adequate). -/
def lowerChars (s : String) : List Char :=
  s.data.map Char.toLower

/-- Accumulator pass of Python `str.split()`: break a character list at
whitespace runs, dropping empty pieces.  `acc` holds the current word
reversed. -/
def splitWsAux : List Char → List Char → List (List Char)
  | [], acc => if acc.isEmpty then [] else [acc.reverse]
  | c :: cs, acc =>
    if pyIsSpace c then
      if acc.isEmpty then splitWsAux cs [] else acc.reverse :: splitWsAux cs []
    else
      splitWsAux cs (c :: acc)

/-- Python `s.split()` (no separator argument): whitespace-run splitting. -/
def pyWords (s : String) : List String :=
  (splitWsAux s.data []).map List.asString

/-- `QueryCache._normalize_query`, question part:
`' '.join(question.lower().strip().split())` — lower-case, then collapse all
whitespace runs to single spaces (leading `strip` is subsumed by `split`). -/
def normalizeQuestion (q : String) : String :=
  String.intercalate " " ((splitWsAux (lowerChars q) []).map List.asString)

/-- Stable insertion step for ascending integer sort (Python `sorted`). -/
def insertAsc (x : Int) : List Int → List Int
  | [] => [x]
  | y :: ys => if x ≤ y then x :: y :: ys else y :: insertAsc x ys

/-- Python `sorted` on a list of ints. -/
def sortedInt : List Int → List Int
  | [] => []
  | x :: xs => insertAsc x (sortedInt xs)

/-- `QueryCache._normalize_query`, filter part:
`sorted(paper_ids) if paper_ids else None` — both `None` and the empty list
normalize to `None` ("all documents"); a non-empty list is sorted ascending. -/
def normFilter : Option (List Int) → Option (List Int)
  | none => none
  | some l => if l = [] then none else some (sortedInt l)

/-- The canonical structure hashed by `QueryCache._normalize_query`
(`key_data = {question, top_k, paper_ids}` serialized with `sort_keys=True`
and digested with SHA-256).  The digest is a deterministic function of this
structure, so two requests receive the same cache key exactly when their
canonical structures agree; the model therefore uses the structure itself as
the key. -/
structure CacheKey where
  question : String
  top_k : Int
  paper_ids : Option (List Int)
deriving DecidableEq, Repr

/-- `QueryCache._normalize_query`: the cache key of a request. -/
def cacheKey (question : String) (top_k : Int) (paper_ids : Option (List Int)) : CacheKey :=
  { question := normalizeQuestion question
    top_k := top_k
    paper_ids := normFilter paper_ids }

/-! ## Cache store (`QueryCache`)

The Python store is a `dict` keyed by the SHA-256 digest; CPython dicts
iterate in insertion order, assignment to an existing key keeps its position,
and `min` over the keys returns the first key attaining the minimum.  The
model is an insertion-ordered association list with those exact semantics.
Wall-clock instants (`time.time()` / `datetime.now()`) are a logical `Nat`
clock passed into each operation. -/

/-- One stored cache entry (the dict built in `QueryCache.set`).  `α` is the
cached response payload. -/
structure CacheEntry (α : Type) where
  response : α
  created_at : Nat
  last_accessed : Nat
  expires_at : Nat
  hit_count : Nat
  original_question : String
  top_k : Int
  paper_ids : Option (List Int)
deriving DecidableEq, Repr

/-- The `QueryCache` object state. -/
structure QueryCache (α : Type) where
  ttl_seconds : Nat
  max_size : Nat
  cache : List (CacheKey × CacheEntry α)
  hits : Nat
  misses : Nat
  evictions : Nat
deriving DecidableEq, Repr

/-- `QueryCache(ttl_seconds, max_size)`: fresh empty cache. -/
def QueryCache.init (α : Type) (ttl_seconds max_size : Nat) : QueryCache α :=
  { ttl_seconds := ttl_seconds, max_size := max_size
    cache := [], hits := 0, misses := 0, evictions := 0 }

/-- Dict lookup `self.cache[key]` (first binding of the key). -/
def lookupKey {α : Type} (l : List (CacheKey × CacheEntry α)) (k : CacheKey) :
    Option (CacheEntry α) :=
  match l with
  | [] => none
  | p :: rest => if p.1 = k then some p.2 else lookupKey rest k

/-- Dict deletion `del self.cache[key]` (removes the binding of the key). -/
def eraseKey {α : Type} (l : List (CacheKey × CacheEntry α)) (k : CacheKey) :
    List (CacheKey × CacheEntry α) :=
  match l with
  | [] => []
  | p :: rest => if p.1 = k then rest else p :: eraseKey rest k

/-- Dict assignment `self.cache[key] = entry`: overwrite in place when the key
exists, append otherwise. -/
def setKey {α : Type} (l : List (CacheKey × CacheEntry α)) (k : CacheKey)
    (e : CacheEntry α) : List (CacheKey × CacheEntry α) :=
  match l with
  | [] => [(k, e)]
  | p :: rest => if p.1 = k then (k, e) :: rest else p :: setKey rest k e

/-- `min(self.cache.keys(), key=lambda k: self.cache[k]['last_accessed'])`:
Python `min` keeps the earliest element attaining the minimum. -/
def oldestPair {α : Type} : List (CacheKey × CacheEntry α) → Option (CacheKey × CacheEntry α)
  | [] => none
  | p :: rest =>
    match oldestPair rest with
    | none => some p
    | some q => if p.2.last_accessed ≤ q.2.last_accessed then some p else some q

/-- `QueryCache._evict_oldest`: drop the least-recently-accessed entry and
count the eviction; a no-op on an empty store. -/
def QueryCache.evictOldest {α : Type} (c : QueryCache α) : QueryCache α :=
  match oldestPair c.cache with
  | none => c
  | some p =>
    { c with cache := eraseKey c.cache p.1, evictions := c.evictions + 1 }

/-- `QueryCache.get` at logical instant `now`: returns the Python result and
the successor state.  Found and unexpired (`now < expires_at`): count the hit,
bump the entry's `hit_count` and `last_accessed`, return the payload.  Found
but expired: delete the entry and fall through to the miss path.  Not found:
miss path.  The miss path counts a miss and returns `none`. -/
def QueryCache.get {α : Type} (c : QueryCache α) (now : Nat) (question : String)
    (top_k : Int) (paper_ids : Option (List Int)) : Option α × QueryCache α :=
  let key := cacheKey question top_k paper_ids
  match lookupKey c.cache key with
  | some entry =>
    if now < entry.expires_at then
      (some entry.response,
       { c with
           hits := c.hits + 1
           cache := setKey c.cache key
             { entry with hit_count := entry.hit_count + 1, last_accessed := now } })
    else
      (none, { c with cache := eraseKey c.cache key, misses := c.misses + 1 })
  | none => (none, { c with misses := c.misses + 1 })

/-- `QueryCache.set` at logical instant `now`: evict the oldest entry when the
store is at (or beyond) capacity, then store the fresh entry with
`expires_at = now + ttl_seconds` and `hit_count = 0`. -/
def QueryCache.set {α : Type} (c : QueryCache α) (now : Nat) (question : String)
    (response : α) (top_k : Int) (paper_ids : Option (List Int)) : QueryCache α :=
  let key := cacheKey question top_k paper_ids
  let c1 := if c.max_size ≤ c.cache.length then c.evictOldest else c
  { c1 with
      cache := setKey c1.cache key
        { response := response
          created_at := now
          last_accessed := now
          expires_at := now + c.ttl_seconds
          hit_count := 0
          original_question := question
          top_k := top_k
          paper_ids := paper_ids } }

/-- The removal test of `QueryCache.invalidate_by_paper`:
`paper_ids is None or paper_id in paper_ids` on the entry's stored,
un-normalized filter. -/
def entryMatchesPaper {α : Type} (e : CacheEntry α) (paper_id : Int) : Bool :=
  match e.paper_ids with
  | none => true
  | some l => paper_id ∈ l

/-- `QueryCache.invalidate_by_paper`: delete every entry whose stored filter
is `None` or contains the paper id. -/
def QueryCache.invalidateByPaper {α : Type} (c : QueryCache α) (paper_id : Int) :
    QueryCache α :=
  { c with cache := c.cache.filter (fun p => ¬ entryMatchesPaper p.2 paper_id) }

/-- `QueryCache.cleanup_expired` at instant `now`: remove the entries with
`now ≥ expires_at` and return their number. -/
def QueryCache.cleanupExpired {α : Type} (c : QueryCache α) (now : Nat) :
    Nat × QueryCache α :=
  let expired := c.cache.filter (fun p => p.2.expires_at ≤ now)
  (expired.length, { c with cache := c.cache.filter (fun p => ¬ p.2.expires_at ≤ now) })

/-! ## Reranker and confidence scorer (`RAGPipeline`)

Shallow embedding of `RAGPipeline._filter_and_rerank`,
`RAGPipeline._calculate_confidence` and the citation construction of
`RAGPipeline._prepare_context`.  Python floats are exact rationals here. -/

/-- Python `str.strip()` on a character list. -/
def stripChars (l : List Char) : List Char :=
  ((l.dropWhile pyIsSpace).reverse.dropWhile pyIsSpace).reverse

/-- Lower-cased string, as a string (`s.lower()`). -/
def lowerStr (s : String) : String :=
  (lowerChars s).asString

/-- One retrieval hit as consumed by the reranker: the similarity `score` and
the payload fields the pipeline reads (`payload.get(...)` defaults are
modelled by `Option`), plus the `boosted_score` key the reranker may add. -/
structure Candidate where
  score : ℚ
  text : String
  sec : Option String
  title : Option String
  filename : Option String
  authors : Option String
  page : Option Int
  boosted_score : Option ℚ := none
deriving DecidableEq, Repr

/-- `text[:100].lower().strip()` — the near-duplicate fingerprint. -/
def fingerprint (text : String) : String :=
  (stripChars ((text.data.take 100).map Char.toLower)).asString

/-- Dedup walk: keep a candidate only when its fingerprint is unseen
(`seen` is the accumulated `seen_texts` set). -/
def dedupFpAux : List Candidate → List String → List Candidate
  | [], _ => []
  | c :: cs, seen =>
    let fp := fingerprint c.text
    if fp ∈ seen then dedupFpAux cs seen
    else c :: dedupFpAux cs (fp :: seen)

/-- Step 1 of `_filter_and_rerank`: remove near-duplicate chunks, keeping the
first occurrence per fingerprint. -/
def dedupFp (results : List Candidate) : List Candidate :=
  dedupFpAux results []

/-- The fixed stop-word set of `_filter_and_rerank`. -/
def stopWords : List String :=
  ["the", "a", "an", "and", "or", "but", "in", "on", "at", "to", "for",
   "of", "with", "is", "are", "was", "were", "what", "how", "why", "when", "where"]

/-- `question_keywords = set(question.lower().split()) - stop_words`, as the
duplicate-free list of non-stop-word question tokens. -/
def questionKeywords (question : String) : List String :=
  ((pyWords (lowerStr question)).dedup).filter (fun w => w ∉ stopWords)

/-- Python substring test `w in l` on character lists. -/
def hasInfix (w : List Char) : List Char → Bool
  | [] => w.isEmpty
  | c :: cs => w.isPrefixOf (c :: cs) || hasInfix w cs

/-- `sum(1 for word in question_keywords if word in text)`: the number of
distinct non-stop-word question tokens occurring literally in the lower-cased
candidate text. -/
def matchCount (question text : String) : Nat :=
  ((questionKeywords question).filter (fun w => hasInfix w.data (lowerChars text))).length

/-- `min(keyword_matches * 0.03, 0.15)` — the multiplicative boost fraction. -/
def boostOf (question text : String) : ℚ :=
  min ((matchCount question text : ℚ) * (3 / 100)) (15 / 100)

/-- Step 2 of `_filter_and_rerank` on one candidate:
`result['boosted_score'] = result['score'] * (1 + boost)`. -/
def boostCandidate (question : String) (c : Candidate) : Candidate :=
  { c with boosted_score := some (c.score * (1 + boostOf question c.text)) }

/-- Step 2 of `_filter_and_rerank` over the deduplicated list. -/
def applyBoost (question : String) (l : List Candidate) : List Candidate :=
  l.map (boostCandidate question)

/-- `x.get('boosted_score', x['score'])` — the sort / confidence key. -/
def scoreOf (c : Candidate) : ℚ :=
  c.boosted_score.getD c.score

/-- Stable descending insertion: a candidate passes over strictly larger keys
and stops before the first key not larger than its own, so among equal keys
the earlier input element stays first (Python `list.sort(reverse=True)` is
stable). -/
def insertDesc (c : Candidate) : List Candidate → List Candidate
  | [] => [c]
  | x :: xs => if scoreOf c < scoreOf x then x :: insertDesc c xs else c :: x :: xs

/-- Step 3 of `_filter_and_rerank`: stable sort, descending by
`boosted_score` (falling back to `score`). -/
def sortByBoosted : List Candidate → List Candidate
  | [] => []
  | c :: cs => insertDesc c (sortByBoosted cs)

/-- `payload.get('section', 'Other')`. -/
def sectionOf (c : Candidate) : String :=
  c.sec.getD "Other"

/-- Lookup in the running `section_counts` table (missing key counts 0). -/
def countOf (counts : List (String × Nat)) (s : String) : Nat :=
  match counts with
  | [] => 0
  | p :: rest => if p.1 = s then p.2 else countOf rest s

/-- Increment a section's running count. -/
def bumpCount (counts : List (String × Nat)) (s : String) : List (String × Nat) :=
  match counts with
  | [] => [(s, 1)]
  | p :: rest => if p.1 = s then (s, p.2 + 1) :: rest else p :: bumpCount rest s

/-- Step 4 of `_filter_and_rerank`: walk the sorted list and admit a
candidate only while its section's running count is below 3. -/
def diversify : List Candidate → List (String × Nat) → List Candidate
  | [], _ => []
  | c :: cs, counts =>
    let s := sectionOf c
    if countOf counts s < 3 then c :: diversify cs (bumpCount counts s)
    else diversify cs counts

/-- `RAGPipeline._filter_and_rerank`: dedup, keyword-boost, stable descending
re-sort, section-diversity filter. -/
def filterAndRerank (results : List Candidate) (question : String) : List Candidate :=
  if results.isEmpty then []
  else diversify (sortByBoosted (applyBoost question (dedupFp results))) []

/-- The truncation `search_results[:top_k]` applied by `RAGPipeline.query`
right after `_filter_and_rerank`. -/
def rerankedTopK (results : List Candidate) (question : String) (top_k : Nat) :
    List Candidate :=
  (filterAndRerank results question).take top_k

/-! ### Confidence -/

/-- Python `round(·)` to an integer, half to even (banker's rounding). -/
def roundHalfEven (q : ℚ) : ℤ :=
  let f := ⌊q⌋
  if q - f < 1 / 2 then f
  else if 1 / 2 < q - f then f + 1
  else if f % 2 = 0 then f else f + 1

/-- Python `round(x, 3)`. -/
def round3 (q : ℚ) : ℚ :=
  (roundHalfEven (q * 1000) : ℚ) / 1000

/-- `min(max(x, 0.0), 1.0)`. -/
def clip01 (q : ℚ) : ℚ :=
  min (max q 0) 1

/-- `max` of a score list (used on the non-empty top-3 slice). -/
def listMax : List ℚ → ℚ
  | [] => 0
  | x :: xs => xs.foldl max x

/-- `min` of a score list (used on the non-empty top-3 slice). -/
def listMin : List ℚ → ℚ
  | [] => 0
  | x :: xs => xs.foldl min x

/-- `len(set(r['payload'].get('title', '') for r in search_results))`. -/
def distinctTitles (rs : List Candidate) : Nat :=
  ((rs.map (fun c => c.title.getD "")).dedup).length

/-- `RAGPipeline._calculate_confidence`: 0.0 on an empty list; otherwise the
weighted sum of relevance (0.6 × mean of the top-3 boosted-or-raw scores),
consistency (0.2 × (1 − min(spread, 0.3)/0.3) with at least 3 results, flat
0.1 otherwise), coverage (0.1 × min(count/5, 1)) and source diversity
(0.1 × min(distinctTitles/3, 1)), clipped to [0, 1] and rounded to 3
decimals. -/
def calculateConfidence (rs : List Candidate) : ℚ :=
  if rs.isEmpty then 0
  else
    let topScores := (rs.take 3).map scoreOf
    let avgScore := topScores.sum / (topScores.length : ℚ)
    let scoreFactor := avgScore * (6 / 10)
    let consistencyFactor :=
      if 3 ≤ rs.length then
        (1 - min (listMax topScores - listMin topScores) (3 / 10) / (3 / 10)) * (2 / 10)
      else (1 / 10)
    let countFactor := min ((rs.length : ℚ) / 5) 1 * (1 / 10)
    let diversityFactor := min ((distinctTitles rs : ℚ) / 3) 1 * (1 / 10)
    round3 (clip01 (scoreFactor + consistencyFactor + countFactor + diversityFactor))

/-! ### Citations (`RAGPipeline._prepare_context`) -/

/-- One citation dict as built in `_prepare_context` (validated against the
`Citation` response schema of `src/models/schemas.py`, which declares
`relevance_score` with `ge=0.0, le=1.0`). -/
structure CitationRec where
  paper_title : String
  filename : String
  authors : String
  sec : String
  page : Int
  relevance_score : ℚ
  chunk_text : String
  reference_number : Nat
deriving DecidableEq, Repr

/-- `chunk_text[:300] + '...' if len(chunk_text) > 300 else chunk_text`. -/
def truncChunk (t : String) : String :=
  if 300 < t.data.length then (t.data.take 300).asString ++ "..." else t

/-- The citation built for the candidate at 0-based position `i`
(`relevance_score = round(boosted-or-raw score, 3)`).  The database filename
fallback of `_prepare_context` is modelled with no session (`db_session=None`),
under which it never fires; it could only change `filename`. -/
def citationFor (i : Nat) (c : Candidate) : CitationRec :=
  { paper_title := c.title.getD "Unknown"
    filename := c.filename.getD "Unknown"
    authors := c.authors.getD "Unknown"
    sec := c.sec.getD "Unknown"
    page := c.page.getD 0
    relevance_score := round3 (scoreOf c)
    chunk_text := truncChunk c.text
    reference_number := i + 1 }

/-- The citation list of `_prepare_context`, in candidate order. -/
def prepareCitations (rs : List Candidate) : List CitationRec :=
  (rs.enum).map (fun p => citationFor p.1 p.2)

/-! ### `sources_used` (`RAGPipeline.query`, step 6)

`sources_used = list(set([c['paper_title'] for c in citations]))`.  A CPython
`set` of strings iterates in a hash- and seed-dependent order, so the code
guarantees only the resulting list's membership and duplicate-freeness, not
its order.  `IsPySetList xs ys` characterises exactly the lists `ys` that
`list(set(xs))` may produce. -/

/-- The lists that `list(set(xs))` may evaluate to: duplicate-free, with the
same members as `xs`. -/
def IsPySetList (xs ys : List String) : Prop :=
  ys.Nodup ∧ ∀ a, a ∈ ys ↔ a ∈ xs

/-- `sources_used` relation of `RAGPipeline.query` step 6: `ys` is a possible
value of `list(set([c['paper_title'] for c in citations]))`. -/
def SourcesUsedOf (citations : List CitationRec) (ys : List String) : Prop :=
  IsPySetList (citations.map CitationRec.paper_title) ys

/-- First-occurrence deduplication: the unique values of `xs` in order of
first appearance (the order the specification claims for `sources_used`). -/
def firstDedupAux : List String → List String → List String
  | [], _ => []
  | x :: xs, seen =>
    if x ∈ seen then firstDedupAux xs seen else x :: firstDedupAux xs (x :: seen)

/-- First-occurrence deduplication of a list. -/
def firstDedup (xs : List String) : List String :=
  firstDedupAux xs []

/-! ## Helper lemmas -/

theorem insertAsc_ne_nil (x : Int) (l : List Int) : insertAsc x l ≠ [] := by
  cases l with
  | nil => simp [insertAsc]
  | cons y ys =>
    simp only [insertAsc]
    split <;> simp

theorem sortedInt_eq_nil_iff (l : List Int) : sortedInt l = [] ↔ l = [] := by
  cases l with
  | nil => simp [sortedInt]
  | cons x xs =>
    simp only [sortedInt]
    constructor
    · intro h
      exact absurd h (insertAsc_ne_nil x (sortedInt xs))
    · intro h
      exact absurd h (by simp)

/-! ## C8: cache-key normalization determinism -/

/-- C8: two requests whose questions agree after lower-casing and
whitespace collapsing, whose `top_k` agree, and whose paper-id filters are
both absent/empty or are equal as sorted lists, are assigned the same cache
key by `QueryCache._normalize_query`. -/
theorem C8_cache_key_normalization (q1 q2 : String) (k1 k2 : Int)
    (p1 p2 : Option (List Int))
    (hq : normalizeQuestion q1 = normalizeQuestion q2)
    (hk : k1 = k2)
    (hp : ((p1 = none ∨ p1 = some []) ∧ (p2 = none ∨ p2 = some [])) ∨
          (∃ l1 l2, p1 = some l1 ∧ p2 = some l2 ∧ sortedInt l1 = sortedInt l2)) :
    cacheKey q1 k1 p1 = cacheKey q2 k2 p2 := by
  have hfilter : normFilter p1 = normFilter p2 := by
    rcases hp with ⟨h1, h2⟩ | ⟨l1, l2, e1, e2, hs⟩
    · have n1 : normFilter p1 = none := by
        rcases h1 with h | h <;> subst h <;> simp [normFilter]
      have n2 : normFilter p2 = none := by
        rcases h2 with h | h <;> subst h <;> simp [normFilter]
      rw [n1, n2]
    · subst e1; subst e2
      by_cases h1 : l1 = []
      · subst h1
        have : sortedInt l2 = [] := by
          rw [← hs]; simp [sortedInt]
        have h2 : l2 = [] := (sortedInt_eq_nil_iff l2).mp this
        subst h2; rfl
      · have h2 : l2 ≠ [] := by
          intro h; subst h
          exact h1 ((sortedInt_eq_nil_iff l1).mp (by simpa [sortedInt] using hs))
        simp [normFilter, h1, h2, hs]
  simp [cacheKey, hq, hk, hfilter]

/-- Witness for C8 at the specification's example:
`("What is attention?", 5, [1,2])` and `("what   is ATTENTION? ", 5, [2,1])`
get the same key. -/
theorem C8_cache_key_normalization_witness :
    cacheKey "What is attention?" 5 (some [1, 2]) =
      cacheKey "what   is ATTENTION? " 5 (some [2, 1]) :=
  C8_cache_key_normalization _ _ _ _ _ _ (by decide) rfl
    (Or.inr ⟨[1, 2], [2, 1], rfl, rfl, by decide⟩)

/-! ## Association-list lemmas for the cache store -/

theorem lookupKey_eq_none {α : Type} (l : List (CacheKey × CacheEntry α)) (k : CacheKey)
    (h : k ∉ l.map Prod.fst) : lookupKey l k = none := by
  induction l with
  | nil => rfl
  | cons p rest ih =>
    simp only [List.map_cons, List.mem_cons, not_or] at h
    simp only [lookupKey, if_neg (fun he : p.1 = k => h.1 he.symm)]
    exact ih h.2

theorem lookupKey_eraseKey_self {α : Type} (l : List (CacheKey × CacheEntry α))
    (k : CacheKey) (hnd : (l.map Prod.fst).Nodup) :
    lookupKey (eraseKey l k) k = none := by
  induction l with
  | nil => rfl
  | cons p rest ih =>
    simp only [List.map_cons, List.nodup_cons] at hnd
    by_cases hpk : p.1 = k
    · simp only [eraseKey, if_pos hpk]
      exact lookupKey_eq_none rest k (hpk ▸ hnd.1)
    · simp only [eraseKey, if_neg hpk, lookupKey, if_neg hpk]
      exact ih hnd.2

theorem lookupKey_eraseKey_ne {α : Type} (l : List (CacheKey × CacheEntry α))
    (k k2 : CacheKey) (hne : k2 ≠ k) :
    lookupKey (eraseKey l k) k2 = lookupKey l k2 := by
  induction l with
  | nil => rfl
  | cons p rest ih =>
    by_cases hpk : p.1 = k
    · have hp2 : ¬ p.1 = k2 := by rw [hpk]; exact fun h => hne h.symm
      simp only [eraseKey, if_pos hpk, lookupKey, if_neg hp2]
    · simp only [eraseKey, if_neg hpk, lookupKey]
      by_cases hp2 : p.1 = k2
      · rw [if_pos hp2, if_pos hp2]
      · rw [if_neg hp2, if_neg hp2]
        exact ih

theorem lookupKey_setKey_self {α : Type} (l : List (CacheKey × CacheEntry α))
    (k : CacheKey) (e : CacheEntry α) :
    lookupKey (setKey l k e) k = some e := by
  induction l with
  | nil => simp [setKey, lookupKey]
  | cons p rest ih =>
    by_cases hpk : p.1 = k
    · simp [setKey, if_pos hpk, lookupKey]
    · simp only [setKey, if_neg hpk, lookupKey, if_neg hpk]
      exact ih

theorem lookupKey_setKey_ne {α : Type} (l : List (CacheKey × CacheEntry α))
    (k k2 : CacheKey) (e : CacheEntry α) (hne : k2 ≠ k) :
    lookupKey (setKey l k e) k2 = lookupKey l k2 := by
  induction l with
  | nil =>
    simp only [setKey, lookupKey]
    rw [if_neg (fun h : k = k2 => hne h.symm)]
  | cons p rest ih =>
    by_cases hpk : p.1 = k
    · have hp2 : ¬ p.1 = k2 := by rw [hpk]; exact fun h => hne h.symm
      simp only [setKey, if_pos hpk, lookupKey,
        if_neg (fun h : k = k2 => hne h.symm), if_neg hp2]
    · simp only [setKey, if_neg hpk, lookupKey]
      by_cases hp2 : p.1 = k2
      · rw [if_pos hp2, if_pos hp2]
      · rw [if_neg hp2, if_neg hp2]
        exact ih

/-! ## C9: the `get` contract -/

/-- C9: the three cases of `QueryCache.get`.  Found but expired
(`expires_at ≤ now`): the call reports absent, the entry is physically
removed, the hit counter is untouched and every other entry is left
unchanged.  Found and unexpired: the payload is returned, the hit counter is
incremented, and the entry's `hit_count` and `last_accessed` are updated.
Not found: absent is reported, the miss counter is incremented and the store
is unchanged.  (Keys are unique in every reachable store, the stated
`CacheEntry` invariant.) -/
theorem C9_get_contract {α : Type} (c : QueryCache α) (now : Nat) (q : String)
    (k : Int) (p : Option (List Int))
    (hnd : (c.cache.map Prod.fst).Nodup) :
    (∀ e, lookupKey c.cache (cacheKey q k p) = some e → e.expires_at ≤ now →
      (c.get now q k p).1 = none ∧
      lookupKey (c.get now q k p).2.cache (cacheKey q k p) = none ∧
      (c.get now q k p).2.hits = c.hits ∧
      (∀ k2 e2, k2 ≠ cacheKey q k p → lookupKey c.cache k2 = some e2 →
        lookupKey (c.get now q k p).2.cache k2 = some e2)) ∧
    (∀ e, lookupKey c.cache (cacheKey q k p) = some e → now < e.expires_at →
      (c.get now q k p).1 = some e.response ∧
      (c.get now q k p).2.hits = c.hits + 1 ∧
      lookupKey (c.get now q k p).2.cache (cacheKey q k p) =
        some { e with hit_count := e.hit_count + 1, last_accessed := now }) ∧
    (lookupKey c.cache (cacheKey q k p) = none →
      (c.get now q k p).1 = none ∧
      (c.get now q k p).2.misses = c.misses + 1 ∧
      (c.get now q k p).2.hits = c.hits ∧
      (c.get now q k p).2.cache = c.cache) := by
  refine ⟨?_, ?_, ?_⟩
  · intro e he hexp
    have hnot : ¬ now < e.expires_at := by omega
    refine ⟨?_, ?_, ?_, ?_⟩
    · simp [QueryCache.get, he, hnot]
    · simp only [QueryCache.get, he, if_neg hnot]
      exact lookupKey_eraseKey_self c.cache (cacheKey q k p) hnd
    · simp [QueryCache.get, he, hnot]
    · intro k2 e2 hne h2
      simp only [QueryCache.get, he, if_neg hnot]
      rw [lookupKey_eraseKey_ne c.cache (cacheKey q k p) k2 hne]
      exact h2
  · intro e he hlive
    refine ⟨?_, ?_, ?_⟩
    · simp [QueryCache.get, he, hlive]
    · simp [QueryCache.get, he, hlive]
    · simp only [QueryCache.get, he, if_pos hlive]
      exact lookupKey_setKey_self _ _ _
  · intro hnone
    refine ⟨?_, ?_, ?_, ?_⟩ <;> simp [QueryCache.get, hnone]

/-- Witness for C9: an entry stored at instant 0 with TTL 10, read back at
instant 10 (past `expires_at`), is reported absent and physically removed,
and an entry read at instant 3 is a hit that bumps the counters. -/
theorem C9_get_contract_witness :
    ((((QueryCache.init Nat 10 2).set 0 "q" 42 5 none).get 10 "q" 5 none).1 = none ∧
      lookupKey ((((QueryCache.init Nat 10 2).set 0 "q" 42 5 none).get 10 "q" 5 none)).2.cache
        (cacheKey "q" 5 none) = none) ∧
    ((((QueryCache.init Nat 10 2).set 0 "q" 42 5 none).get 3 "q" 5 none).1 = some 42 ∧
      (((QueryCache.init Nat 10 2).set 0 "q" 42 5 none).get 3 "q" 5 none).2.hits = 1) := by
  have hexp := (C9_get_contract ((QueryCache.init Nat 10 2).set 0 "q" 42 5 none)
    10 "q" 5 none (by decide)).1
    { response := 42, created_at := 0, last_accessed := 0, expires_at := 10,
      hit_count := 0, original_question := "q", top_k := 5, paper_ids := none }
    (by decide) (by decide)
  have hlive := ((C9_get_contract ((QueryCache.init Nat 10 2).set 0 "q" 42 5 none)
    3 "q" 5 none (by decide)).2).1
    { response := 42, created_at := 0, last_accessed := 0, expires_at := 10,
      hit_count := 0, original_question := "q", top_k := 5, paper_ids := none }
    (by decide) (by decide)
  exact ⟨⟨hexp.1, hexp.2.1⟩, ⟨hlive.1, hlive.2.1⟩⟩

/-! ## C6: capacity invariant and LRU eviction -/

/-- Driver: run a list of `set` calls `(now, question, response, top_k,
paper_ids)` against a cache state. -/
def applySets {α : Type} (c : QueryCache α) :
    List (Nat × String × α × Int × Option (List Int)) → QueryCache α
  | [] => c
  | o :: os => applySets (c.set o.1 o.2.1 o.2.2.1 o.2.2.2.1 o.2.2.2.2) os

/-- Driver: insert the questions one per clock tick starting at instant `t`
(fixed `top_k = 5`, no paper filter). -/
def insertSeq {α : Type} (c : QueryCache α) (t : Nat) (resp : α) :
    List String → QueryCache α
  | [] => c
  | q :: qs => insertSeq (c.set t q resp 5 none) (t + 1) resp qs

/-- The entry `QueryCache.set` stores for question `q` at instant `t`. -/
def seqEntry {α : Type} (ttl : Nat) (resp : α) (t : Nat) (q : String) : CacheEntry α :=
  { response := resp, created_at := t, last_accessed := t, expires_at := t + ttl,
    hit_count := 0, original_question := q, top_k := 5, paper_ids := none }

/-- The association list `insertSeq` builds when no eviction fires. -/
def seqEntries {α : Type} (ttl : Nat) (resp : α) (t : Nat) :
    List String → List (CacheKey × CacheEntry α)
  | [] => []
  | q :: qs => (cacheKey q 5 none, seqEntry ttl resp t q) :: seqEntries ttl resp (t + 1) qs

theorem setKey_length_le {α : Type} (l : List (CacheKey × CacheEntry α))
    (k : CacheKey) (e : CacheEntry α) :
    (setKey l k e).length ≤ l.length + 1 := by
  induction l with
  | nil => simp [setKey]
  | cons p rest ih =>
    by_cases hpk : p.1 = k
    · simp [setKey, if_pos hpk]
    · simp only [setKey, if_neg hpk, List.length_cons]
      omega

theorem eraseKey_length {α : Type} (l : List (CacheKey × CacheEntry α))
    (k : CacheKey) (h : k ∈ l.map Prod.fst) :
    (eraseKey l k).length + 1 = l.length := by
  induction l with
  | nil => simp at h
  | cons p rest ih =>
    by_cases hpk : p.1 = k
    · simp [eraseKey, if_pos hpk]
    · simp only [List.map_cons, List.mem_cons] at h
      rcases h with h | h

      · exact absurd h.symm hpk
      · simp only [eraseKey, if_neg hpk, List.length_cons]
        rw [← ih h]

theorem oldestPair_mem {α : Type} (l : List (CacheKey × CacheEntry α))
    (p : CacheKey × CacheEntry α) (h : oldestPair l = some p) : p ∈ l := by
  induction l generalizing p with
  | nil => simp [oldestPair] at h
  | cons x rest ih =>
    simp only [oldestPair] at h
    cases hr : oldestPair rest with
    | none =>
      rw [hr] at h
      cases h
      exact List.mem_cons_self x rest
    | some q =>
      rw [hr] at h
      change (if x.2.last_accessed ≤ q.2.last_accessed then some x else some q) = some p at h
      by_cases hle : x.2.last_accessed ≤ q.2.last_accessed
      · rw [if_pos hle] at h
        cases h
        exact List.mem_cons_self x rest
      · rw [if_neg hle] at h
        injection h with h2
        exact List.mem_cons_of_mem x (ih _ (h2 ▸ hr))

/-- One `set` call never pushes a store that respects a positive capacity
above that capacity. -/
theorem set_length_le {α : Type} (c : QueryCache α) (now : Nat) (q : String)
    (resp : α) (k : Int) (p : Option (List Int))
    (hpos : 1 ≤ c.max_size) (hlen : c.cache.length ≤ c.max_size) :
    (c.set now q resp k p).cache.length ≤ c.max_size := by
  by_cases hfull : c.max_size ≤ c.cache.length
  · have hne : c.cache ≠ [] := by
      intro h
      rw [h] at hfull
      simp at hfull
      omega
    obtain ⟨x, rest, hx⟩ := List.exists_cons_of_ne_nil hne
    have hsome : ∃ op, oldestPair c.cache = some op := by
      rw [hx]
      simp only [oldestPair]
      cases oldestPair rest with
      | none => exact ⟨x, rfl⟩
      | some q' => by_cases h : x.2.last_accessed ≤ q'.2.last_accessed <;> simp [h]
    obtain ⟨op, hop⟩ := hsome
    have hmem : op.1 ∈ c.cache.map Prod.fst :=
      List.mem_map_of_mem Prod.fst (oldestPair_mem c.cache op hop)
    have herase := eraseKey_length c.cache op.1 hmem
    simp only [QueryCache.set, if_pos hfull, QueryCache.evictOldest, hop]
    have := setKey_length_le (eraseKey c.cache op.1) (cacheKey q k p)
      { response := resp, created_at := now, last_accessed := now,
        expires_at := now + c.ttl_seconds, hit_count := 0,
        original_question := q, top_k := k, paper_ids := p }
    omega
  · simp only [QueryCache.set, if_neg hfull]
    have := setKey_length_le c.cache (cacheKey q k p)
      { response := resp, created_at := now, last_accessed := now,
        expires_at := now + c.ttl_seconds, hit_count := 0,
        original_question := q, top_k := k, paper_ids := p }
    omega

theorem set_max_size {α : Type} (c : QueryCache α) (now : Nat) (q : String)
    (resp : α) (k : Int) (p : Option (List Int)) :
    (c.set now q resp k p).max_size = c.max_size := by
  simp only [QueryCache.set]
  by_cases hfull : c.max_size ≤ c.cache.length
  · rw [if_pos hfull]
    simp only [QueryCache.evictOldest]
    cases oldestPair c.cache <;> rfl
  · rw [if_neg hfull]

theorem setKey_of_not_mem {α : Type} (l : List (CacheKey × CacheEntry α))
    (k : CacheKey) (e : CacheEntry α) (h : k ∉ l.map Prod.fst) :
    setKey l k e = l ++ [(k, e)] := by
  induction l with
  | nil => rfl
  | cons p rest ih =>
    simp only [List.map_cons, List.mem_cons, not_or] at h
    simp only [setKey, if_neg (fun he : p.1 = k => h.1 he.symm), List.cons_append,
      List.cons.injEq, true_and]
    exact ih h.2

theorem seqEntries_keys {α : Type} (ttl : Nat) (r : α) (qs : List String) :
    ∀ t, (seqEntries ttl r t qs).map Prod.fst = qs.map (fun q => cacheKey q 5 none) := by
  induction qs with
  | nil => intro t; rfl
  | cons q rest ih =>
    intro t
    simp only [seqEntries, List.map_cons, ih (t + 1)]

theorem seqEntries_length {α : Type} (ttl : Nat) (r : α) (qs : List String) :
    ∀ t, (seqEntries ttl r t qs).length = qs.length := by
  induction qs with
  | nil => intro t; rfl
  | cons q rest ih =>
    intro t
    simp only [seqEntries, List.length_cons, ih (t + 1)]

theorem oldestPair_head_zero {α : Type} (x : CacheKey × CacheEntry α)
    (rest : List (CacheKey × CacheEntry α)) (h : x.2.last_accessed = 0) :
    oldestPair (x :: rest) = some x := by
  cases hq : oldestPair rest with
  | none => simp [oldestPair, hq]
  | some q => simp [oldestPair, hq, h, Nat.zero_le]

/-- Evicting from a store whose first entry has the minimal possible
`last_accessed` (0) drops exactly that entry. -/
theorem evictOldest_cons_zero {α : Type} (ttl maxsz h m e : Nat)
    (x : CacheKey × CacheEntry α) (rest : List (CacheKey × CacheEntry α))
    (hz : x.2.last_accessed = 0) :
    QueryCache.evictOldest ⟨ttl, maxsz, x :: rest, h, m, e⟩ =
      ⟨ttl, maxsz, eraseKey (x :: rest) x.1, h, m, e + 1⟩ := by
  simp only [QueryCache.evictOldest, oldestPair_head_zero x rest hz]

/-- A `set` on a store at capacity whose first entry is the unique oldest one
evicts that entry and appends the fresh one. -/
theorem set_at_capacity {α : Type} (ttl maxsz h m e : Nat)
    (x : CacheKey × CacheEntry α) (rest : List (CacheKey × CacheEntry α))
    (hz : x.2.last_accessed = 0)
    (hlen : maxsz ≤ (x :: rest).length) (now : Nat) (q : String) (r : α)
    (hfresh : cacheKey q 5 none ∉ (eraseKey (x :: rest) x.1).map Prod.fst) :
    QueryCache.set ⟨ttl, maxsz, x :: rest, h, m, e⟩ now q r 5 none =
      ⟨ttl, maxsz,
        eraseKey (x :: rest) x.1 ++
          [(cacheKey q 5 none, ⟨r, now, now, now + ttl, 0, q, 5, none⟩)],
        h, m, e + 1⟩ := by
  simp only [QueryCache.set, if_pos hlen,
    evictOldest_cons_zero ttl maxsz h m e x rest hz,
    setKey_of_not_mem _ _ _ hfresh]

/-- Filling an under-capacity store with fresh, pairwise-distinct keys never
evicts: the entries are appended in insertion order. -/
theorem insertSeq_fill {α : Type} (qs : List String) :
    ∀ (c : QueryCache α) (t : Nat) (r : α),
      (∀ q ∈ qs, cacheKey q 5 none ∉ c.cache.map Prod.fst) →
      (qs.map (fun q => cacheKey q 5 none)).Nodup →
      c.cache.length + qs.length ≤ c.max_size →
      insertSeq c t r qs = { c with cache := c.cache ++ seqEntries c.ttl_seconds r t qs } := by
  induction qs with
  | nil =>
    intro c t r _ _ _
    simp [insertSeq, seqEntries]
  | cons q qs ih =>
    intro c t r hfresh hnd hlen
    have hnotfull : ¬ c.max_size ≤ c.cache.length := by
      simp only [List.length_cons] at hlen
      omega
    have hkey : cacheKey q 5 none ∉ c.cache.map Prod.fst :=
      hfresh q (List.mem_cons_self _ _)
    have hset : c.set t q r 5 none =
        { c with cache := c.cache ++ [(cacheKey q 5 none, seqEntry c.ttl_seconds r t q)] } := by
      simp only [QueryCache.set, if_neg hnotfull]
      rw [setKey_of_not_mem _ _ _ hkey]
      rfl
    simp only [List.map_cons, List.nodup_cons] at hnd
    have hih := ih { c with cache := c.cache ++ [(cacheKey q 5 none, seqEntry c.ttl_seconds r t q)] }
      (t + 1) r
      (by
        intro q2 hq2
        simp only [List.map_append, List.map_cons, List.map_nil, List.mem_append,
          List.mem_cons, List.not_mem_nil, or_false, not_or]
        refine ⟨hfresh q2 (List.mem_cons_of_mem q hq2), ?_⟩
        intro heq
        exact hnd.1 (heq ▸ List.mem_map_of_mem (fun s => cacheKey s 5 none) hq2))
      hnd.2
      (by
        simp only [List.length_append, List.length_cons, List.length_nil]
        simp only [List.length_cons] at hlen
        omega)
    simp only [insertSeq, hset, hih, seqEntries, List.append_assoc, List.cons_append,
      List.nil_append]

/-- `insertSeq` over a list ending in one extra question is the fill of the
prefix followed by one more `set` at the next instant. -/
theorem insertSeq_snoc {α : Type} (xs : List String) :
    ∀ (c : QueryCache α) (t : Nat) (r : α) (y : String),
      insertSeq c t r (xs ++ [y]) = (insertSeq c t r xs).set (t + xs.length) y r 5 none := by
  induction xs with
  | nil =>
    intro c t r y
    simp [insertSeq]
  | cons x xs ih =>
    intro c t r y
    show insertSeq (c.set t x r 5 none) (t + 1) r (xs ++ [y]) =
      (insertSeq (c.set t x r 5 none) (t + 1) r xs).set (t + (xs.length + 1)) y r 5 none
    rw [ih]
    have harith : t + 1 + xs.length = t + (xs.length + 1) := by omega
    rw [harith]

/-- C6: (a) for every sequence of `set` calls against a store within its
positive capacity, the store size never exceeds `max_size` — a `set` at
capacity evicts the entry with the oldest `last_accessed` before inserting;
(b) inserting `max_size + 1` entries with pairwise-distinct keys into an
empty store of capacity `max_size = |qs| + 1` leaves exactly `max_size`
entries, with the least-recently-accessed (first-inserted) entry gone and
all later entries present in order. -/
theorem C6_capacity_invariant_and_lru_eviction :
    (∀ (α : Type) (c : QueryCache α)
        (ops : List (Nat × String × α × Int × Option (List Int))),
        1 ≤ c.max_size → c.cache.length ≤ c.max_size →
        (applySets c ops).cache.length ≤ c.max_size) ∧
    (∀ (ttl resp : Nat) (q0 q_new : String) (qs : List String),
        (((q0 :: qs) ++ [q_new]).map (fun q => cacheKey q 5 none)).Nodup →
        (insertSeq (QueryCache.init Nat ttl (qs.length + 1)) 0 resp
            ((q0 :: qs) ++ [q_new])).cache
          = seqEntries ttl resp 1 qs ++
              [(cacheKey q_new 5 none, seqEntry ttl resp (qs.length + 1) q_new)] ∧
        (insertSeq (QueryCache.init Nat ttl (qs.length + 1)) 0 resp
            ((q0 :: qs) ++ [q_new])).cache.length = qs.length + 1 ∧
        lookupKey (insertSeq (QueryCache.init Nat ttl (qs.length + 1)) 0 resp
            ((q0 :: qs) ++ [q_new])).cache (cacheKey q0 5 none) = none) := by
  constructor
  · intro α c ops
    induction ops generalizing c with
    | nil => intro hpos hlen; exact hlen
    | cons o os ih =>
      intro hpos hlen
      have hstep := set_length_le c o.1 o.2.1 o.2.2.1 o.2.2.2.1 o.2.2.2.2 hpos hlen
      have hmax := set_max_size c o.1 o.2.1 o.2.2.1 o.2.2.2.1 o.2.2.2.2
      have := ih (c.set o.1 o.2.1 o.2.2.1 o.2.2.2.1 o.2.2.2.2)
        (by rw [hmax]; exact hpos) (by rw [hmax]; exact hstep)
      rw [hmax] at this
      exact this
  · intro ttl resp q0 q_new qs hnd
    have hnd' := hnd
    simp only [List.map_append, List.map_cons, List.map_nil, List.nodup_append,
      List.nodup_cons, List.nodup_nil, List.disjoint_cons_left] at hnd'
    obtain ⟨⟨hq0notin, hqsnd⟩, -, hq0ne, hdisj⟩ := hnd'
    -- fill the first qs.length + 1 entries
    have hfill := insertSeq_fill (α := Nat) (q0 :: qs) (QueryCache.init Nat ttl (qs.length + 1))
      0 resp (by intro q _; simp [QueryCache.init])
      (by simp only [List.map_cons, List.nodup_cons]; exact ⟨hq0notin, hqsnd⟩)
      (by simp [QueryCache.init])
    have hcache : insertSeq (QueryCache.init Nat ttl (qs.length + 1)) 0 resp (q0 :: qs) =
        ⟨ttl, qs.length + 1,
          (cacheKey q0 5 none, seqEntry ttl resp 0 q0) :: seqEntries ttl resp 1 qs,
          0, 0, 0⟩ := by
      rw [hfill]
      rfl
    have herase : eraseKey ((cacheKey q0 5 none, seqEntry ttl resp 0 q0) ::
        seqEntries (α := Nat) ttl resp 1 qs) (cacheKey q0 5 none, seqEntry ttl resp 0 q0).1
          = seqEntries ttl resp 1 qs := by
      simp [eraseKey]
    have hnewfresh : cacheKey q_new 5 none ∉
        (seqEntries (α := Nat) ttl resp 1 qs).map Prod.fst := by
      rw [seqEntries_keys]
      intro hmem
      obtain ⟨q2, hq2, heq⟩ := List.mem_map.mp hmem
      exact hdisj (List.mem_map_of_mem (fun s => cacheKey s 5 none) hq2)
        (by simp [heq])
    have hfinal := set_at_capacity (α := Nat) ttl (qs.length + 1) 0 0 0
      (cacheKey q0 5 none, seqEntry ttl resp 0 q0) (seqEntries ttl resp 1 qs)
      rfl (by rw [List.length_cons, seqEntries_length]) (qs.length + 1) q_new resp
      (by rw [herase]; exact hnewfresh)
    rw [herase] at hfinal
    have harith : (0 : Nat) + (q0 :: qs).length = qs.length + 1 := by simp
    rw [insertSeq_snoc, hcache, harith, hfinal]
    refine ⟨rfl, ?_, ?_⟩
    · simp [seqEntries_length]
    · apply lookupKey_eq_none
      have hkeyform : (seqEntries (α := Nat) ttl resp 1 qs ++
          [(cacheKey q_new 5 none, seqEntry ttl resp (qs.length + 1) q_new)]).map Prod.fst
            = qs.map (fun q => cacheKey q 5 none) ++ [cacheKey q_new 5 none] := by
        simp [seqEntries_keys]
      show cacheKey q0 5 none ∉ (seqEntries (α := Nat) ttl resp 1 qs ++
          [(cacheKey q_new 5 none, seqEntry ttl resp (qs.length + 1) q_new)]).map Prod.fst
      rw [hkeyform]
      simp only [List.mem_append, List.mem_singleton, not_or]
      refine ⟨hq0notin, fun h => hq0ne (by simp [h])⟩

/-- Witness for C6: capacity 2, inserting the three distinct questions
"a", "b", "c" leaves exactly the entries for "b" and "c"; the entry of
"a" (the least recently accessed) is gone. -/
theorem C6_capacity_invariant_and_lru_eviction_witness :
    (insertSeq (QueryCache.init Nat 10 2) 0 7 (("a" :: ["b"]) ++ ["c"])).cache.length = 2 ∧
    lookupKey (insertSeq (QueryCache.init Nat 10 2) 0 7
      (("a" :: ["b"]) ++ ["c"])).cache (cacheKey "a" 5 none) = none ∧
    (applySets (QueryCache.init Nat 10 2)
      [(0, "x", 1, 5, none), (1, "y", 2, 5, none), (2, "z", 3, 5, none)]).cache.length ≤ 2 := by
  have h := C6_capacity_invariant_and_lru_eviction.2 10 7 "a" "c" ["b"] (by decide)
  have hinv := C6_capacity_invariant_and_lru_eviction.1 Nat (QueryCache.init Nat 10 2)
    [(0, "x", 1, 5, none), (1, "y", 2, 5, none), (2, "z", 3, 5, none)]
    (by decide) (by decide)
  exact ⟨h.2.1, h.2.2, hinv⟩

/-! ## C1: `invalidate_by_paper` and empty-list filters

`QueryCache.invalidate_by_paper` tests `paper_ids is None or paper_id in
paper_ids`, so an entry whose stored filter is the *empty list* — which
`_normalize_query` treats as "all documents", exactly like `None` — is never
removed. -/

/-- C1 (failing input): after `set("q", resp, 5, paper_ids=[])` the store
holds exactly one entry whose stored filter is the empty list, and
`invalidate_by_paper(7)` leaves the store completely unchanged, although the
entry's key covers all-documents queries; entries with an absent (`None`)
filter are removed by the very same call. -/
theorem C1_invalidate_keeps_empty_list_filter_entry :
    ((QueryCache.init Nat 100 10).set 0 "q" 1 5 (some [])).cache =
      [(cacheKey "q" 5 (some []),
        ⟨1, 0, 0, 100, 0, "q", 5, some []⟩)] ∧
    cacheKey "q" 5 (some []) = cacheKey "q" 5 none ∧
    QueryCache.invalidateByPaper ((QueryCache.init Nat 100 10).set 0 "q" 1 5 (some [])) 7 =
      (QueryCache.init Nat 100 10).set 0 "q" 1 5 (some []) ∧
    (QueryCache.invalidateByPaper ((QueryCache.init Nat 100 10).set 0 "q" 1 5 none) 7).cache
      = [] := by
  refine ⟨by decide, by decide, by decide, by decide⟩

/-! ## C2: cache faults in the `query_papers` route

In `src/api/routes.py` the calls `query_cache.get(...)` and
`query_cache.set(...)` sit inside the handler's single `try` block, whose
`except Exception` converts any exception into an `HTTPException` (status
chosen by substring tests on the lower-cased message, default 500).  A cache
fault therefore aborts the request instead of degrading to a miss. -/

/-- The status-code classification of the handler's `except Exception`
branch. -/
def classifyHttpStatus (msg : String) : Nat :=
  let m := lowerChars msg
  if hasInfix "connection".data m || hasInfix "qdrant".data m then 503
  else if hasInfix "api".data m && (hasInfix "key".data m || hasInfix "auth".data m) then 401
  else if hasInfix "rate".data m || hasInfix "quota".data m then 429
  else if hasInfix "no papers".data m || hasInfix "no documents".data m then 404
  else 500

/-- Control flow of the `query_papers` handler with the collaborators as
parameters: the cache lookup (which may return a hit, a miss, or raise), the
pipeline run, the cache population and the history write, all inside one
`try`; any raised exception reaches the final `except Exception` and becomes
an HTTP error with `classifyHttpStatus`.  `α` is the response payload (the
cached-flag and response-time bookkeeping does not affect the control
flow). -/
def queryPapersHandler (α : Type) (cacheEnabled : Bool)
    (cacheGet : Except String (Option α))
    (pipelineRun : Except String α)
    (cacheSet : α → Except String Unit)
    (saveHistory : α → Except String Unit) : Except (Nat × String) α :=
  let body : Except String α := do
    let cached ← if cacheEnabled then cacheGet else .ok none
    let result ← match cached with
      | some r => pure r
      | none => do
          let r ← pipelineRun
          let _ ← if cacheEnabled then cacheSet r else .ok ()
          pure r
    let _ ← saveHistory result
    pure result
  match body with
  | .ok r => .ok r
  | .error e => .error (classifyHttpStatus e, e)

/-- C2 (counterexample): with caching enabled, a fault raised inside
`query_cache.get` makes the handler return an HTTP 500 error — the pipeline
result (42) is *not* returned, so the fault is not treated as a miss; with
the cache disabled the very same request succeeds. -/
theorem C2_cache_fault_aborts_counterexample :
    queryPapersHandler Nat true (Except.error "cache exploded") (Except.ok 42)
        (fun _ => Except.ok ()) (fun _ => Except.ok ())
      = Except.error (500, "cache exploded") ∧
    queryPapersHandler Nat false (Except.error "cache exploded") (Except.ok 42)
        (fun _ => Except.ok ()) (fun _ => Except.ok ())
      = Except.ok 42 := by
  exact ⟨rfl, rfl⟩

/-- C2 (amended): a fault raised by the cache during `get` — or during `set`
after a successful pipeline run — propagates to the route's catch-all
handler and aborts the query with an HTTP error (`classifyHttpStatus` of the
message, 500 by default); no query result is returned. -/
theorem C2_cache_fault_aborts :
    (∀ (α : Type) (e : String) (pipelineRun : Except String α)
        (cacheSet saveHistory : α → Except String Unit),
      queryPapersHandler α true (Except.error e) pipelineRun cacheSet saveHistory
        = Except.error (classifyHttpStatus e, e)) ∧
    (∀ (α : Type) (e : String) (r : α) (saveHistory : α → Except String Unit),
      queryPapersHandler α true (Except.ok none) (Except.ok r)
          (fun _ => Except.error e) saveHistory
        = Except.error (classifyHttpStatus e, e)) := by
  exact ⟨fun α e pr cs sh => rfl, fun α e r sh => rfl⟩

/-! ## C3: `sources_used` -/

theorem mem_firstDedupAux (xs : List String) :
    ∀ (seen : List String) (a : String),
      a ∈ firstDedupAux xs seen ↔ a ∈ xs ∧ a ∉ seen := by
  induction xs with
  | nil => intro seen a; simp [firstDedupAux]
  | cons x xs ih =>
    intro seen a
    by_cases hx : x ∈ seen
    · simp only [firstDedupAux, if_pos hx, ih, List.mem_cons]
      constructor
      · rintro ⟨ha, hns⟩
        exact ⟨Or.inr ha, hns⟩
      · rintro ⟨ha | ha, hns⟩
        · exact absurd (ha ▸ hx) hns
        · exact ⟨ha, hns⟩
    · simp only [firstDedupAux, if_neg hx, List.mem_cons, ih, List.mem_cons, not_or]
      constructor
      · rintro (rfl | ⟨ha, hne, hns⟩)
        · exact ⟨Or.inl rfl, hx⟩
        · exact ⟨Or.inr ha, hns⟩
      · rintro ⟨rfl | ha, hns⟩
        · exact Or.inl rfl
        · by_cases hax : a = x
          · exact Or.inl hax
          · exact Or.inr ⟨ha, hax, hns⟩

theorem firstDedupAux_nodup (xs : List String) :
    ∀ seen : List String, (firstDedupAux xs seen).Nodup := by
  induction xs with
  | nil => intro seen; exact List.nodup_nil
  | cons x xs ih =>
    intro seen
    by_cases hx : x ∈ seen
    · simp only [firstDedupAux, if_pos hx]
      exact ih seen
    · simp only [firstDedupAux, if_neg hx, List.nodup_cons]
      refine ⟨?_, ih (x :: seen)⟩
      intro hmem
      exact ((mem_firstDedupAux xs (x :: seen) x).mp hmem).2 (List.mem_cons_self x seen)

theorem firstDedup_nodup (xs : List String) : (firstDedup xs).Nodup :=
  firstDedupAux_nodup xs []

theorem mem_firstDedup (xs : List String) (a : String) :
    a ∈ firstDedup xs ↔ a ∈ xs := by
  rw [firstDedup, mem_firstDedupAux]
  simp

/-- Two concrete citations used to exhibit the order-insensitivity of
`list(set(...))`. -/
def citA : CitationRec :=
  ⟨"Paper A", "a.pdf", "Auth A", "Intro", 1, 1/2, "text a", 1⟩

/-- Second concrete citation (distinct title). -/
def citB : CitationRec :=
  ⟨"Paper B", "b.pdf", "Auth B", "Intro", 2, 1/2, "text b", 2⟩

/-- C3 (counterexample): `sources_used` is built with
`list(set([c['paper_title'] for c in citations]))`; a CPython set iterates in
hash-seed-dependent order, so for titles `["Paper A", "Paper B"]` the code
may return `["Paper B", "Paper A"]`, which is *not* the first-occurrence
order the claim asserts. -/
theorem C3_sources_used_order_counterexample :
    ¬ (∀ ys, SourcesUsedOf [citA, citB] ys →
        ys = firstDedup ([citA, citB].map CitationRec.paper_title)) := by
  intro h
  have hspec : SourcesUsedOf [citA, citB] ["Paper B", "Paper A"] := by
    constructor
    · decide
    · intro a
      simp only [citA, citB, List.map_cons, List.map_nil, List.mem_cons,
        List.not_mem_nil, or_false]
      exact or_comm
  have := h ["Paper B", "Paper A"] hspec
  exact absurd this (by decide)

/-- C3 (amended): `sources_used` contains each citation title exactly once —
it is a permutation of the first-occurrence deduplication of the citations'
titles — but its order is unspecified. -/
theorem C3_sources_used_unique_titles (cits : List CitationRec) (ys : List String)
    (h : SourcesUsedOf cits ys) :
    ys.Nodup ∧ ys.Perm (firstDedup (cits.map CitationRec.paper_title)) := by
  obtain ⟨hnd, hmem⟩ := h
  refine ⟨hnd, ?_⟩
  rw [List.perm_ext_iff_of_nodup hnd (firstDedup_nodup _)]
  intro a
  rw [mem_firstDedup]
  exact hmem a

/-- Witness for the amended C3 at a concrete input. -/
theorem C3_sources_used_unique_titles_witness :
    (["Paper B", "Paper A"] : List String).Nodup ∧
    (["Paper B", "Paper A"] : List String).Perm
      (firstDedup ([citA, citB].map CitationRec.paper_title)) := by
  refine C3_sources_used_unique_titles [citA, citB] ["Paper B", "Paper A"] ⟨by decide, ?_⟩
  intro a
  simp only [citA, citB, List.map_cons, List.map_nil, List.mem_cons,
    List.not_mem_nil, or_false]
  exact or_comm

/-! ## C4: keyword boost -/

/-- A concrete retrieval candidate used by witnesses. -/
def candA : Candidate :=
  ⟨1/2, "attention is all you need", some "Intro", some "Paper T",
    some "t.pdf", some "Auth", some 1, none⟩

/-- C4: every candidate surviving deduplication leaves the boost step with
`boosted_score = raw_score × (1 + min(matchCount × 0.03, 0.15))`, where
`matchCount` counts the non-stop-word question keywords occurring literally
(as substrings) in the candidate's lower-cased text; with a non-negative raw
score the boosted score is at least the raw score. -/
theorem C4_keyword_boost_formula (q : String) (rs : List Candidate) (c : Candidate)
    (hc : c ∈ applyBoost q (dedupFp rs)) (hnn : 0 ≤ c.score) :
    c.boosted_score =
      some (c.score * (1 + min ((matchCount q c.text : ℚ) * (3 / 100)) (15 / 100))) ∧
    ∀ b, c.boosted_score = some b → c.score ≤ b := by
  obtain ⟨c0, h0, rfl⟩ := List.mem_map.mp hc
  have hnn0 : (0 : ℚ) ≤ c0.score := hnn
  constructor
  · rfl
  · intro b hb
    have hb' : b = c0.score * (1 + boostOf q c0.text) := by
      have : some (c0.score * (1 + boostOf q c0.text)) = some b := hb
      injection this with h
      exact h.symm
    have hm : (0 : ℚ) ≤ (matchCount q c0.text : ℚ) * (3 / 100) := by positivity
    have hboost : 0 ≤ boostOf q c0.text := le_min hm (by norm_num)
    show c0.score ≤ b
    rw [hb']
    nlinarith [hnn0, hboost]

/-- Witness for C4 on a concrete candidate and question. -/
theorem C4_keyword_boost_formula_witness :
    (boostCandidate "what is attention" candA).boosted_score =
      some (candA.score *
        (1 + min ((matchCount "what is attention" candA.text : ℚ) * (3 / 100)) (15 / 100))) ∧
    candA.score ≤ candA.score *
      (1 + min ((matchCount "what is attention" candA.text : ℚ) * (3 / 100)) (15 / 100)) := by
  have hlist : applyBoost "what is attention" (dedupFp [candA]) =
      [boostCandidate "what is attention" candA] := rfl
  have h := C4_keyword_boost_formula "what is attention" [candA]
    (boostCandidate "what is attention" candA)
    (by rw [hlist]; exact List.mem_singleton.mpr rfl)
    (by show (0 : ℚ) ≤ candA.score; norm_num [candA])
  exact ⟨h.1, h.2 _ h.1⟩

/-! ## C5: confidence -/

theorem roundHalfEven_nonneg (q : ℚ) (h0 : 0 ≤ q) : 0 ≤ roundHalfEven q := by
  have hf : (0 : ℤ) ≤ ⌊q⌋ := Int.floor_nonneg.mpr h0
  unfold roundHalfEven
  dsimp only
  split_ifs <;> omega

theorem roundHalfEven_le_of_le (q : ℚ) (B : ℤ) (h1 : q ≤ (B : ℚ)) :
    roundHalfEven q ≤ B := by
  have hfB : ⌊q⌋ ≤ B := by
    have h2 := Int.floor_mono h1
    rwa [Int.floor_intCast] at h2
  have hfloor : (⌊q⌋ : ℚ) ≤ q := Int.floor_le q
  unfold roundHalfEven
  dsimp only
  split_ifs with ha hb hc
  · exact hfB
  · have hlt : (⌊q⌋ : ℚ) < (B : ℚ) := by linarith
    have : ⌊q⌋ < B := by exact_mod_cast hlt
    omega
  · exact hfB
  · have hge : (1 : ℚ) / 2 ≤ q - ⌊q⌋ := by linarith [not_lt.mp ha]
    have hlt : (⌊q⌋ : ℚ) < (B : ℚ) := by linarith
    have : ⌊q⌋ < B := by exact_mod_cast hlt
    omega

theorem round3_nonneg (q : ℚ) (h : 0 ≤ q) : 0 ≤ round3 q := by
  have hz := roundHalfEven_nonneg (q * 1000) (by positivity)
  unfold round3
  have : (0 : ℚ) ≤ (roundHalfEven (q * 1000) : ℚ) := by exact_mod_cast hz
  positivity

theorem round3_le_one (q : ℚ) (h : q ≤ 1) : round3 q ≤ 1 := by
  have h1 : q * 1000 ≤ ((1000 : ℤ) : ℚ) := by push_cast; linarith
  have hz := roundHalfEven_le_of_le (q * 1000) 1000 h1
  unfold round3
  rw [div_le_one (by norm_num)]
  exact_mod_cast hz

theorem clip01_nonneg (q : ℚ) : 0 ≤ clip01 q :=
  le_min (le_max_right q 0) (by norm_num)

theorem clip01_le_one (q : ℚ) : clip01 q ≤ 1 :=
  min_le_right _ _

/-- C5: the confidence of an empty candidate list is exactly 0; for a
non-empty list it lies in [0, 1] and equals the weighted sum of relevance
(0.6 × mean of the top-3 boosted-or-raw scores), consistency (0.2 ×
(1 − min(spread, 0.3)/0.3) with at least 3 candidates, flat 0.1 otherwise),
coverage (0.1 × min(count/5, 1)) and source diversity
(0.1 × min(distinctTitles/3, 1)), clipped to [0, 1] and rounded to 3
decimals. -/
theorem C5_confidence_bounds_and_formula (rs : List Candidate) :
    (rs = [] → calculateConfidence rs = 0) ∧
    (rs ≠ [] →
      0 ≤ calculateConfidence rs ∧ calculateConfidence rs ≤ 1 ∧
      calculateConfidence rs =
        round3 (clip01 (
          (((rs.take 3).map scoreOf).sum / ((((rs.take 3).map scoreOf)).length : ℚ)) * (6 / 10) +
          (if 3 ≤ rs.length then
            (1 - min (listMax ((rs.take 3).map scoreOf) - listMin ((rs.take 3).map scoreOf))
                (3 / 10) / (3 / 10)) * (2 / 10)
          else (1 / 10)) +
          min ((rs.length : ℚ) / 5) 1 * (1 / 10) +
          min ((distinctTitles rs : ℚ) / 3) 1 * (1 / 10)))) := by
  constructor
  · intro h
    subst h
    rfl
  · intro hne
    have hnotempty : rs.isEmpty = false := by
      cases rs with
      | nil => exact absurd rfl hne
      | cons a l => rfl
    have hcalc : calculateConfidence rs =
        round3 (clip01 (
          (((rs.take 3).map scoreOf).sum / ((((rs.take 3).map scoreOf)).length : ℚ)) * (6 / 10) +
          (if 3 ≤ rs.length then
            (1 - min (listMax ((rs.take 3).map scoreOf) - listMin ((rs.take 3).map scoreOf))
                (3 / 10) / (3 / 10)) * (2 / 10)
          else (1 / 10)) +
          min ((rs.length : ℚ) / 5) 1 * (1 / 10) +
          min ((distinctTitles rs : ℚ) / 3) 1 * (1 / 10))) := by
      simp only [calculateConfidence, hnotempty, Bool.false_eq_true, if_false]
    rw [hcalc]
    exact ⟨round3_nonneg _ (clip01_nonneg _), round3_le_one _ (clip01_le_one _), rfl⟩

/-- Witness for C5 on a single-candidate list. -/
theorem C5_confidence_bounds_witness :
    0 ≤ calculateConfidence [candA] ∧ calculateConfidence [candA] ≤ 1 := by
  have h := (C5_confidence_bounds_and_formula [candA]).2 (List.cons_ne_nil _ _)
  exact ⟨h.1, h.2.1⟩

/-! ## C7: reranking invariants -/

theorem dedupFpAux_fp_nodup (l : List Candidate) :
    ∀ seen : List String,
      ((dedupFpAux l seen).map (fun c => fingerprint c.text)).Nodup ∧
      ∀ c ∈ dedupFpAux l seen, fingerprint c.text ∉ seen := by
  induction l with
  | nil => intro seen; exact ⟨List.nodup_nil, by intro c hc; cases hc⟩
  | cons c cs ih =>
    intro seen
    by_cases hfp : fingerprint c.text ∈ seen
    · simp only [dedupFpAux, if_pos hfp]
      exact ih seen
    · simp only [dedupFpAux, if_neg hfp, List.map_cons, List.nodup_cons]
      obtain ⟨hnd, hdis⟩ := ih (fingerprint c.text :: seen)
      refine ⟨⟨?_, hnd⟩, ?_⟩
      · intro hmem
        obtain ⟨c2, hc2, heq⟩ := List.mem_map.mp hmem
        exact hdis c2 hc2 (heq ▸ List.mem_cons_self _ _)
      · intro c2 hc2
        rcases List.mem_cons.mp hc2 with rfl | hc2
        · exact hfp
        · intro hs
          exact hdis c2 hc2 (List.mem_cons_of_mem _ hs)

/-- On a score-descending input, every input candidate is represented in the
dedup output by a surviving candidate with the same fingerprint and at least
its score (the kept occurrence is the first, hence highest-scoring, one). -/
theorem dedupFpAux_keeps_best (l : List Candidate) :
    ∀ seen : List String, l.Pairwise (fun a b => b.score ≤ a.score) →
      ∀ c ∈ l, fingerprint c.text ∉ seen →
        ∃ c2 ∈ dedupFpAux l seen,
          fingerprint c2.text = fingerprint c.text ∧ c.score ≤ c2.score := by
  induction l with
  | nil => intro seen _ c hc; cases hc
  | cons a tl ih =>
    intro seen hpw c hc hcseen
    obtain ⟨hhead, htail⟩ := List.pairwise_cons.mp hpw
    by_cases hfpa : fingerprint a.text ∈ seen
    · simp only [dedupFpAux, if_pos hfpa]
      rcases List.mem_cons.mp hc with rfl | hc
      · exact absurd hfpa hcseen
      · exact ih seen htail c hc hcseen
    · simp only [dedupFpAux, if_neg hfpa]
      rcases List.mem_cons.mp hc with rfl | hc
      · exact ⟨c, List.mem_cons_self _ _, rfl, le_refl _⟩
      · by_cases heq : fingerprint c.text = fingerprint a.text
        · exact ⟨a, List.mem_cons_self _ _, heq.symm, hhead c hc⟩
        · obtain ⟨c2, hc2, hfp2, hs2⟩ := ih (fingerprint a.text :: seen) htail c hc
            (by
              intro hs
              rcases List.mem_cons.mp hs with heq2 | hs2
              · exact heq heq2
              · exact hcseen hs2)
          exact ⟨c2, List.mem_cons_of_mem _ hc2, hfp2, hs2⟩

theorem applyBoost_map_fp (q : String) (l : List Candidate) :
    (applyBoost q l).map (fun c => fingerprint c.text)
      = l.map (fun c => fingerprint c.text) := by
  unfold applyBoost
  rw [List.map_map]
  rfl

theorem insertDesc_perm (c : Candidate) (l : List Candidate) :
    (insertDesc c l).Perm (c :: l) := by
  induction l with
  | nil => exact List.Perm.refl _
  | cons x xs ih =>
    simp only [insertDesc]
    by_cases h : scoreOf c < scoreOf x
    · rw [if_pos h]
      exact (ih.cons x).trans (List.Perm.swap c x xs)
    · rw [if_neg h]

theorem sortByBoosted_perm (l : List Candidate) : (sortByBoosted l).Perm l := by
  induction l with
  | nil => exact List.Perm.refl _
  | cons c cs ih =>
    simp only [sortByBoosted]
    exact (insertDesc_perm c (sortByBoosted cs)).trans (ih.cons c)

theorem diversify_sublist (l : List Candidate) :
    ∀ counts : List (String × Nat), (diversify l counts).Sublist l := by
  induction l with
  | nil => intro counts; exact List.Sublist.refl _
  | cons c cs ih =>
    intro counts
    simp only [diversify]
    by_cases h : countOf counts (sectionOf c) < 3
    · rw [if_pos h]
      exact (ih (bumpCount counts (sectionOf c))).cons₂ c
    · rw [if_neg h]
      exact (ih counts).trans (List.sublist_cons_self c cs)

theorem countOf_bumpCount_self (counts : List (String × Nat)) (s : String) :
    countOf (bumpCount counts s) s = countOf counts s + 1 := by
  induction counts with
  | nil => simp [bumpCount, countOf]
  | cons p rest ih =>
    by_cases h : p.1 = s
    · simp [bumpCount, countOf, if_pos h, h]
    · simp only [bumpCount, if_neg h, countOf, if_neg h]
      exact ih

theorem countOf_bumpCount_ne (counts : List (String × Nat)) (s s2 : String)
    (h : s ≠ s2) : countOf (bumpCount counts s) s2 = countOf counts s2 := by
  induction counts with
  | nil => simp [bumpCount, countOf, h]
  | cons p rest ih =>
    by_cases hp : p.1 = s
    · simp only [bumpCount, if_pos hp, countOf, if_neg h, if_neg (hp ▸ h : p.1 ≠ s2)]
    · simp only [bumpCount, if_neg hp, countOf]
      by_cases hp2 : p.1 = s2
      · rw [if_pos hp2, if_pos hp2]
      · rw [if_neg hp2, if_neg hp2]
        exact ih

theorem diversify_filter_length (l : List Candidate) :
    ∀ (counts : List (String × Nat)) (s : String),
      ((diversify l counts).filter (fun c => decide (sectionOf c = s))).length
        ≤ 3 - countOf counts s := by
  induction l with
  | nil => intro counts s; simp [diversify]
  | cons c cs ih =>
    intro counts s
    simp only [diversify]
    by_cases hlt : countOf counts (sectionOf c) < 3
    · rw [if_pos hlt]
      by_cases hts : sectionOf c = s
      · have hcount := countOf_bumpCount_self counts (sectionOf c)
        have hrec := ih (bumpCount counts (sectionOf c)) s
        rw [hts] at hcount hrec ⊢
        rw [hcount] at hrec
        simp only [List.filter_cons, decide_eq_true_eq, hts, if_pos True.intro,
          decide_True, List.length_cons]
        rw [hts] at hlt
        omega
      · have hrec := ih (bumpCount counts (sectionOf c)) s
        rw [countOf_bumpCount_ne counts (sectionOf c) s hts] at hrec
        simpa [List.filter_cons, hts] using hrec
    · rw [if_neg hlt]
      exact ih counts s

/-- C7: on a score-descending candidate list, the reranked-and-truncated
output has pairwise-distinct text fingerprints, at most 3 candidates per
section, and length at most `top_k`; moreover the dedup stage represents
every input candidate by a surviving candidate with the same fingerprint and
at least its score. -/
theorem C7_rerank_invariants (rs : List Candidate) (q : String) (k : Nat)
    (hsorted : rs.Pairwise (fun a b => b.score ≤ a.score)) :
    ((rerankedTopK rs q k).map (fun c => fingerprint c.text)).Nodup ∧
    (∀ s, ((rerankedTopK rs q k).filter (fun c => decide (sectionOf c = s))).length ≤ 3) ∧
    (rerankedTopK rs q k).length ≤ k ∧
    (∀ c ∈ rs, ∃ c2 ∈ dedupFp rs,
      fingerprint c2.text = fingerprint c.text ∧ c.score ≤ c2.score) := by
  have hkeep : ∀ c ∈ rs, ∃ c2 ∈ dedupFp rs,
      fingerprint c2.text = fingerprint c.text ∧ c.score ≤ c2.score := by
    intro c hc
    exact dedupFpAux_keeps_best rs [] hsorted c hc (by intro h; cases h)
  by_cases hempty : rs.isEmpty
  · have hnil : rs = [] := by
      cases rs with
      | nil => rfl
      | cons a l => cases hempty
    subst hnil
    refine ⟨by simp [rerankedTopK, filterAndRerank], ?_, ?_, hkeep⟩
    · intro s
      simp [rerankedTopK, filterAndRerank]
    · simp [rerankedTopK, filterAndRerank]
  · have hrtk : rerankedTopK rs q k =
        (diversify (sortByBoosted (applyBoost q (dedupFp rs))) []).take k := by
      simp only [rerankedTopK, filterAndRerank, hempty, Bool.false_eq_true, if_false]
    have hnodup1 : ((dedupFp rs).map (fun c => fingerprint c.text)).Nodup :=
      (dedupFpAux_fp_nodup rs []).1
    have hnodup2 : ((applyBoost q (dedupFp rs)).map (fun c => fingerprint c.text)).Nodup := by
      rw [applyBoost_map_fp]
      exact hnodup1
    have hperm := (sortByBoosted_perm (applyBoost q (dedupFp rs))).map
      (fun c => fingerprint c.text)
    have hnodup3 : ((sortByBoosted (applyBoost q (dedupFp rs))).map
        (fun c => fingerprint c.text)).Nodup := hperm.nodup_iff.mpr hnodup2
    have hsub : ((diversify (sortByBoosted (applyBoost q (dedupFp rs))) []).take k).Sublist
        (sortByBoosted (applyBoost q (dedupFp rs))) :=
      (List.take_sublist k _).trans (diversify_sublist _ [])
    refine ⟨?_, ?_, ?_, hkeep⟩
    · rw [hrtk]
      exact List.Nodup.sublist (hsub.map (fun c => fingerprint c.text)) hnodup3
    · intro s
      rw [hrtk]
      have h1 := diversify_filter_length (sortByBoosted (applyBoost q (dedupFp rs))) [] s
      have h2 : (((diversify (sortByBoosted (applyBoost q (dedupFp rs))) []).take k).filter
          (fun c => decide (sectionOf c = s))).length ≤
          ((diversify (sortByBoosted (applyBoost q (dedupFp rs))) []).filter
          (fun c => decide (sectionOf c = s))).length :=
        ((List.take_sublist k _).filter _).length_le
      simp only [countOf] at h1
      omega
    · rw [hrtk]
      exact List.length_take_le k _

/-- Witness for C7 on a single-candidate list. -/
theorem C7_rerank_invariants_witness :
    ((rerankedTopK [candA] "q" 3).map (fun c => fingerprint c.text)).Nodup ∧
    ((rerankedTopK [candA] "q" 3).filter
      (fun c => decide (sectionOf c = "Intro"))).length ≤ 3 ∧
    (rerankedTopK [candA] "q" 3).length ≤ 3 := by
  have h := C7_rerank_invariants [candA] "q" 3 (by simp)
  exact ⟨h.1, h.2.1 "Intro", h.2.2.1⟩

/-! ## C10: citation relevance vs. the schema bound -/

/-- A maximal-similarity candidate whose text contains five non-stop-word
keywords of `questionB`. -/
def candB : Candidate :=
  ⟨1, "attention mechanism transformer architecture model neural", some "Intro",
    some "Paper T", some "t.pdf", some "Auth", some 2, none⟩

/-- A question with six non-stop-word keywords, five of which occur
literally in `candB`'s text. -/
def questionB : String :=
  "explain attention mechanism transformer architecture model"

/-- C10: a raw score inside [0, 1] does not guarantee the schema bound — with
raw score 1.0 and five keyword matches the boost step yields
`boosted_score = 1.15`, and the citation built in `_prepare_context` carries
`relevance_score = round(1.15, 3) = 1.15 > 1.0`, violating the `Citation`
schema's `le=1.0` declaration. -/
theorem C10_relevance_score_exceeds_one :
    (0 ≤ candB.score ∧ candB.score ≤ 1) ∧
    (prepareCitations (rerankedTopK [candB] questionB 5)).map CitationRec.relevance_score
      = [23 / 20] ∧
    (1 : ℚ) < 23 / 20 := by
  have hmc : matchCount questionB candB.text = 5 := by decide
  have hval : scoreOf (boostCandidate questionB candB) = 23 / 20 := by
    show candB.score *
      (1 + min ((matchCount questionB candB.text : ℚ) * (3 / 100)) (15 / 100)) = 23 / 20
    rw [hmc]
    norm_num [candB, min_def]
  have hround : round3 ((23 : ℚ) / 20) = 23 / 20 := by
    have h1150 : ((23 : ℚ) / 20) * 1000 = ((1150 : ℤ) : ℚ) := by norm_num
    show (roundHalfEven (((23 : ℚ) / 20) * 1000) : ℚ) / 1000 = 23 / 20
    rw [h1150]
    have hfl : roundHalfEven (((1150 : ℤ) : ℚ)) = 1150 := by
      unfold roundHalfEven
      dsimp only
      rw [Int.floor_intCast]
      norm_num
    rw [hfl]
    norm_num
  have h1 : (prepareCitations (rerankedTopK [candB] questionB 5)).map
      CitationRec.relevance_score = [round3 (scoreOf (boostCandidate questionB candB))] := rfl
  refine ⟨⟨by norm_num [candB], by norm_num [candB]⟩, ?_, by norm_num⟩
  rw [h1, hval, hround]

end RagSpec
